import Mathlib

/-!
# Verification of `wrangler.py`

Shallow embedding of the term-normalization engine in `src/wrangler.py`:

* `BaseWrangler` (lines 24-54): the shared `wrangled_terms` / `wrangle`
  machinery, parameterized here by the substitution map of the concrete
  normalizer.
* `CapsWrangler` (lines 63-82): capitalization normalizer.
* `TextWrangler` (lines 91-108): fuzzy-text normalizer, built on
  `fuzzywuzzy.process.extractBests`.
* `Wrangler` (lines 117-129): composite normalizer.

Modelling conventions:

* A Python `str` is a Lean `String`; `str.lower()` is modelled by mapping
  `Char.toLower` over the characters (ASCII case folding; all concrete
  inputs used below are ASCII).
* `Counter(self._terms_)[t]` is `terms.count t`; iteration over
  `Counter.items()` is iteration over the distinct terms in
  first-occurrence order, which is exactly Python's guaranteed `Counter`
  insertion order (`uniqueTerms terms` below).
* `set(self._terms_)` has unspecified iteration order in Python; it is
  determinized here to first-occurrence order as well (the same
  determinization the spec's §9 note on tie-breaking assumes).  The
  *contents* of every substitution dict are independent of this order;
  only tie-breaking inside `extractBests` depends on it, and every
  concrete input used below is chosen so that the conclusion holds under
  either iteration order of the two-element set involved.
* A Python `dict` is an association list with distinct keys; `d.get(k)`
  is `List.lookup`, and `d[k] = v` is `dictInsert` (update in place if
  the key exists, append otherwise), matching dict insertion-order
  semantics.
* The string-similarity primitive is *external* to the repository
  (`fuzzywuzzy`), so the fuzzy normalizer is parameterized over an
  arbitrary score function `score : String → String → Nat`; the spec
  (§4.3, §9) only promises an integer in [0,100] that is 100 for
  identical strings.  `simScore` below is a concrete instance used for
  witnesses and counterexamples, faithful to `fuzz.WRatio` on the inputs
  it is applied to (see its doc comment).
-/

/-- Python `str.lower()` (ASCII case folding, per `Char.toLower`). -/
def strToLower (s : String) : String := ⟨s.data.map Char.toLower⟩

/-- Model of `set(self._terms_)` / `Counter(self._terms_).keys()`: the distinct
terms, determinized to first-occurrence order (wrangler.py line 36). -/
def uniqueTerms : List String → List String
  | [] => []
  | t :: ts => t :: (uniqueTerms ts).filter (fun u => u != t)

/-- Lookup `self.substitutions.get(term)` with the "`None` means keep" default:
the replacement applied to one term (wrangler.py lines 46-49, 54). -/
def applySubs (subs : List (String × String)) (t : String) : String :=
  (subs.lookup t).getD t

/-- Model of `BaseWrangler.wrangled_terms` (wrangler.py lines 42-50), with the
concrete normalizer's substitution map passed explicitly. -/
def wrangledTerms (subs : List (String × String)) (terms : List String) : List String :=
  terms.map (applySubs subs)

/-- The failure signalled by `BaseWrangler.wrangle` on a term outside the
original input (the spec's `InputDomainError`; wrangler.py line 53). -/
inductive WrangleError where
  | inputDomainError : String → WrangleError
deriving DecidableEq

/-- Model of `BaseWrangler.wrangle` (wrangler.py lines 52-54): assert membership in
the original input, then substitute-or-identity. -/
def wrangle (terms : List String) (subs : List (String × String)) (term : String) :
    Except WrangleError String :=
  if term ∈ terms then .ok (applySubs subs term)
  else .error (.inputDomainError term)

/-- The loop body state of `CapsWrangler._get_preferred_capitalization_`
(wrangler.py lines 67-73): fold `(best_term, best_count)` over the
distinct terms (i.e. over `Counter.items()` in first-occurrence order),
with `lower_term` already computed. -/
def prefAux (terms : List String) (lowerTerm : String) : Option String × Nat :=
  (uniqueTerms terms).foldl
    (fun acc altTerm =>
      if lowerTerm = strToLower altTerm ∧ terms.count altTerm > acc.2
      then (some altTerm, terms.count altTerm) else acc)
    (none, 0)

/-- Model of `CapsWrangler._get_preferred_capitalization_` (wrangler.py lines 66-74). -/
def getPreferredCapitalization (terms : List String) (term : String) : Option String :=
  (prefAux terms (strToLower term)).1

/-- The body of the `CapsWrangler.substitutions` loop for one distinct
term (wrangler.py lines 80-81).  For a term of the input the preferred
capitalization is never `none` (its own count is positive), so the
`none` branch is unreachable there; entering nothing in that case keeps
the model total. -/
def capsSubFor (terms : List String) (term : String) : Option String :=
  match getPreferredCapitalization terms term with
  | some preferredCap => if preferredCap = term then none else some preferredCap
  | none => none

/-- Model of `CapsWrangler.substitutions` (wrangler.py lines 76-82): one dict entry
per distinct term whose preferred capitalization differs from it. -/
def capsSubstitutions (terms : List String) : List (String × String) :=
  (uniqueTerms terms).filterMap fun term => (capsSubFor terms term).map fun u => (term, u)

/-- One step of Python's stable descending sort: insert `x` in front of
the first already-placed element whose score it is ≥ to. -/
def insertScored (x : String × Nat) : List (String × Nat) → List (String × Nat)
  | [] => [x]
  | y :: ys => if y.2 ≤ x.2 then x :: y :: ys else y :: insertScored x ys

/-- Stable sort by score, descending — the semantics of
`heapq.nlargest(limit, ..., key=score)` used by
`fuzzywuzzy.process.extractBests`, which CPython documents as
`sorted(iterable, key=key, reverse=True)[:limit]` with a stable sort. -/
def sortScoredDesc : List (String × Nat) → List (String × Nat)
  | [] => []
  | x :: xs => insertScored x (sortScoredDesc xs)

/-- Model of `extractBests(term, choices, limit=2)` (wrangler.py line 102): score
every choice (the default `score_cutoff=0` keeps them all), stable-sort
descending by score, keep the first two.  The scorer is a parameter; see
the module comment. -/
def extractBests2 (score : String → String → Nat) (query : String)
    (choices : List String) : List (String × Nat) :=
  (sortScoredDesc (choices.map fun c => (c, score query c))).take 2

/-- The default fuzzy-match threshold (wrangler.py line 94). -/
def defaultThreshold : Nat := 94

/-- The body of the `TextWrangler.substitutions` loop for one distinct
term (wrangler.py lines 102-107).  `closest_terms` has at most two
elements, so `len(closest_terms) > 1` is exactly the two-element case and
`closest_terms[-1]` is the second; a longer list is unreachable. -/
def textSubFor (score : String → String → Nat) (terms : List String) (threshold : Nat)
    (term : String) : Option String :=
  match extractBests2 score term (uniqueTerms terms) with
  | [_, closestTerm] =>
      if closestTerm.2 > threshold ∧ terms.count closestTerm.1 ≥ terms.count term
      then some closestTerm.1 else none
  | _ => none

/-- Model of `TextWrangler.substitutions` (wrangler.py lines 98-108). -/
def textSubstitutions (score : String → String → Nat) (terms : List String)
    (threshold : Nat) : List (String × String) :=
  (uniqueTerms terms).filterMap fun term =>
    (textSubFor score terms threshold term).map fun u => (term, u)

/-- Python `d[k] = v` on a dict modelled as an association list with
distinct keys: overwrite in place, else append. -/
def dictInsert : List (String × String) → String → String → List (String × String)
  | [], k, v => [(k, v)]
  | p :: rest, k, v => if p.1 = k then (k, v) :: rest else p :: dictInsert rest k v

/-- Model of `Wrangler.substitutions` (wrangler.py lines 119-129): start from the
caps map, redirect each caps value through the text map when the text
map substitutes it further (the first loop only rewrites values, never
keys), then dict-assign every text substitution (the second loop). -/
def wranglerSubstitutions (score : String → String → Nat) (terms : List String) :
    List (String × String) :=
  let capsSubs := capsSubstitutions terms
  let textSubs := textSubstitutions score (wrangledTerms capsSubs terms) defaultThreshold
  let merged := capsSubs.map fun p => (p.1, applySubs textSubs p.2)
  textSubs.foldl (fun d p => dictInsert d p.1 p.2) merged

/-- A character the regex `\W` of `fuzzywuzzy.utils.full_process` does
*not* replace (ASCII word characters). -/
def isWordChar (c : Char) : Bool := c.isAlphanum || c == '_'

/-- Model of `fuzzywuzzy.utils.full_process`: replace non-word characters with
spaces, strip, lowercase (the order of stripping and lowercasing is
immaterial since lowercasing fixes spaces). -/
def fullProcess (s : String) : String :=
  let replaced := s.data.map fun c => if isWordChar c then c else ' '
  let trimmed := ((replaced.dropWhile (fun c => c == ' ')).reverse.dropWhile
      (fun c => c == ' ')).reverse
  strToLower ⟨trimmed⟩

/-- Modelled from the spec: the string-similarity primitive is the
external `fuzzywuzzy` library (`fuzz.WRatio` through `extractBests`), not
part of `src/`; the spec (§4.3, §9) requires only an integer score in
[0,100] that is 100 for identical strings, symmetric, and degrading with
edit distance.  This model returns 100 exactly when the two strings are
identical after `full_process` (true of `WRatio`, which compares the
processed strings, whenever the processed strings are nonempty) and 0
otherwise (a conservative floor).  It is used only on concrete inputs on
which it agrees with `WRatio` exactly, namely inputs whose distinct terms
all process to the same nonempty string, so that every pairwise score is
100 under both. -/
def simScore (a b : String) : Nat := if fullProcess a = fullProcess b then 100 else 0

/-- Modelled from the spec: a second concrete instance of the external
similarity primitive, used to witness the fuzzy-pass theorems in the
regime where distinct near-duplicates score strictly between the default
threshold and 100 — `WRatio` scores the spec's §8 scenario-2 pair
"color"/"colour" at 96.  Identical strings score 100, that one unordered
pair scores 96, everything else 0. -/
def nearScore (a b : String) : Nat :=
  if a = b then 100
  else if (a = "color" ∧ b = "colour") ∨ (a = "colour" ∧ b = "color") then 96
  else 0

/-- Spec-side characterization (§4.2 / claim C2) of the chosen preferred
capitalization: `u` is a member of `t`'s case-insensitive group, every
group member encountered before `u` has strictly smaller count, and no
later member has a larger one. -/
def groupOf (terms : List String) (t : String) : List String :=
  (uniqueTerms terms).filter fun v => strToLower t == strToLower v

/-- Spec-side predicate (claim C2): `u` is the first member of `t`'s
case-insensitive group attaining the group's maximum frequency count. -/
def isFirstMaxOfGroup (terms : List String) (t u : String) : Prop :=
  ∃ l₁ l₂, groupOf terms t = l₁ ++ u :: l₂ ∧
    (∀ v ∈ l₁, terms.count v < terms.count u) ∧
    (∀ v ∈ l₂, terms.count v ≤ terms.count u)

/-! ## Basic facts about `uniqueTerms` and substitution-map lookups -/

theorem mem_uniqueTerms {a : String} : ∀ {l : List String}, a ∈ uniqueTerms l ↔ a ∈ l
  | [] => Iff.rfl
  | t :: ts => by
    simp only [uniqueTerms, List.mem_cons, List.mem_filter, bne_iff_ne, ne_eq]
    constructor
    · rintro (rfl | ⟨h, _⟩)
      · exact .inl rfl
      · exact .inr (mem_uniqueTerms.mp h)
    · rintro (rfl | h)
      · exact .inl rfl
      · by_cases hat : a = t
        · exact .inl hat
        · exact .inr ⟨mem_uniqueTerms.mpr h, hat⟩

theorem nodup_uniqueTerms : ∀ (l : List String), (uniqueTerms l).Nodup
  | [] => List.nodup_nil
  | t :: ts => by
    refine List.Nodup.cons ?_ ((nodup_uniqueTerms ts).filter _)
    intro hmem
    have h := (List.mem_filter.mp hmem).2
    simp at h

theorem count_pos_of_mem_uniqueTerms {a : String} {l : List String}
    (h : a ∈ uniqueTerms l) : 0 < l.count a :=
  List.count_pos_iff.mpr (mem_uniqueTerms.mp h)

/-- Both `capsSubstitutions` and `textSubstitutions` build their dict as
`filterMap` of a per-term optional entry over the distinct terms; this is
its generic lookup law, first for an absent key. -/
theorem lookup_entryList_of_not_mem {f : String → Option String} {t : String} :
    ∀ {l : List String}, t ∉ l →
      (l.filterMap fun x => (f x).map fun u => (x, u)).lookup t = none
  | [], _ => rfl
  | x :: l, h => by
    have hx : t ≠ x := fun e => h (e ▸ List.mem_cons_self x l)
    have ht : t ∉ l := fun e => h (List.mem_cons_of_mem x e)
    rw [List.filterMap_cons]
    cases hfx : f x with
    | none => exact lookup_entryList_of_not_mem ht
    | some u =>
      have hbeq : (t == x) = false := beq_false_of_ne hx
      simp only [Option.map_some', List.lookup_cons, hbeq]
      exact lookup_entryList_of_not_mem ht

/-- Generic lookup law for the `filterMap`-built substitution dicts over a
duplicate-free key list. -/
theorem lookup_entryList {f : String → Option String} {t : String} :
    ∀ {l : List String}, l.Nodup →
      (l.filterMap fun x => (f x).map fun u => (x, u)).lookup t =
        if t ∈ l then f t else none
  | [], _ => by simp
  | x :: l, hnd => by
    rw [List.filterMap_cons]
    by_cases hx : t = x
    · subst hx
      have ht : t ∉ l := (List.nodup_cons.mp hnd).1
      cases hfx : f t with
      | none =>
        simp only [hfx, Option.map_none', lookup_entryList_of_not_mem ht]
        simp [hfx]
      | some u =>
        simp only [hfx, Option.map_some', List.lookup_cons, beq_self_eq_true]
        simp [hfx]
    · have hmem : (t ∈ x :: l) ↔ (t ∈ l) := by simp [List.mem_cons, hx]
      cases hfx : f x with
      | none =>
        simp only [hfx, Option.map_none']
        rw [lookup_entryList (List.nodup_cons.mp hnd).2]
        by_cases h2 : t ∈ l
        · rw [if_pos h2, if_pos (hmem.mpr h2)]
        · rw [if_neg h2, if_neg (fun hc => h2 (hmem.mp hc))]
      | some u =>
        have hbeq : (t == x) = false := beq_false_of_ne hx
        simp only [hfx, Option.map_some', List.lookup_cons, hbeq]
        rw [lookup_entryList (List.nodup_cons.mp hnd).2]
        by_cases h2 : t ∈ l
        · rw [if_pos h2, if_pos (hmem.mpr h2)]
        · rw [if_neg h2, if_neg (fun hc => h2 (hmem.mp hc))]

/-- Lookup law for `CapsWrangler.substitutions`. -/
theorem lookup_capsSubstitutions {terms : List String} {t : String} :
    (capsSubstitutions terms).lookup t =
      if t ∈ terms then capsSubFor terms t else none := by
  rw [capsSubstitutions, lookup_entryList (nodup_uniqueTerms terms)]
  by_cases h : t ∈ terms
  · rw [if_pos (mem_uniqueTerms.mpr h), if_pos h]
  · rw [if_neg (fun hm => h (mem_uniqueTerms.mp hm)), if_neg h]

/-- Lookup law for `TextWrangler.substitutions`. -/
theorem lookup_textSubstitutions {score : String → String → Nat} {terms : List String}
    {threshold : Nat} {t : String} :
    (textSubstitutions score terms threshold).lookup t =
      if t ∈ terms then textSubFor score terms threshold t else none := by
  rw [textSubstitutions, lookup_entryList (nodup_uniqueTerms terms)]
  by_cases h : t ∈ terms
  · rw [if_pos (mem_uniqueTerms.mpr h), if_pos h]
  · rw [if_neg (fun hm => h (mem_uniqueTerms.mp hm)), if_neg h]

/-! ## The preferred-capitalization fold -/

/-- The `_get_preferred_capitalization_` loop ignores terms of other
case-insensitive groups: folding over a list is folding the simplified
step over its matching sublist. -/
theorem prefFold_filter (terms : List String) (lower : String) :
    ∀ (l : List String) (acc : Option String × Nat),
      l.foldl (fun acc altTerm =>
        if lower = strToLower altTerm ∧ terms.count altTerm > acc.2
        then (some altTerm, terms.count altTerm) else acc) acc =
      (l.filter fun v => lower == strToLower v).foldl (fun acc altTerm =>
        if terms.count altTerm > acc.2
        then (some altTerm, terms.count altTerm) else acc) acc
  | [], _ => rfl
  | a :: l, acc => by
    simp only [List.foldl_cons, List.filter_cons]
    by_cases ha : lower = strToLower a
    · have hb : (lower == strToLower a) = true := by simpa using ha
      rw [if_pos hb]
      simp only [List.foldl_cons]
      by_cases hc : terms.count a > acc.2
      · rw [if_pos ⟨ha, hc⟩, if_pos hc]
        exact prefFold_filter terms lower l _
      · rw [if_neg fun h => hc h.2, if_neg hc]
        exact prefFold_filter terms lower l _
    · have hb : ¬(lower == strToLower a) = true := by simpa using ha
      rw [if_neg hb, if_neg fun h => ha h.1]
      exact prefFold_filter terms lower l _

/-- Splitting a cons list around a distinguished element. -/
theorem cons_split_iff {α : Type} {a u : α} {g : List α} {P : List α → List α → Prop} :
    (∃ l₁ l₂, a :: g = l₁ ++ u :: l₂ ∧ P l₁ l₂) ↔
      ((u = a ∧ P [] g) ∨ ∃ l₁ l₂, g = l₁ ++ u :: l₂ ∧ P (a :: l₁) l₂) := by
  constructor
  · rintro ⟨l₁, l₂, heq, hP⟩
    cases l₁ with
    | nil =>
      simp only [List.nil_append] at heq
      injection heq with h1 h2
      subst h1; subst h2
      exact .inl ⟨rfl, hP⟩
    | cons b l₁' =>
      simp only [List.cons_append] at heq
      injection heq with h1 h2
      subst h1
      exact .inr ⟨l₁', l₂, h2, hP⟩
  · rintro (⟨rfl, hP⟩ | ⟨l₁, l₂, heq, hP⟩)
    · exact ⟨[], g, rfl, hP⟩
    · exact ⟨a :: l₁, l₂, by rw [heq, List.cons_append], hP⟩

/-- Running strict maximum from a seeded accumulator: the fold keeps the
seed when nothing beats it, otherwise it returns the first element
attaining the maximum count. -/
theorem maxFold_some_iff (c : String → Nat) {u : String} :
    ∀ (g : List String) (w : String),
      (g.foldl (fun acc altTerm =>
        if c altTerm > acc.2 then (some altTerm, c altTerm) else acc) (some w, c w)).1
          = some u ↔
        ((u = w ∧ ∀ v ∈ g, c v ≤ c w) ∨
          ∃ l₁ l₂, g = l₁ ++ u :: l₂ ∧ c w < c u ∧
            (∀ v ∈ l₁, c v < c u) ∧ (∀ v ∈ l₂, c v ≤ c u))
  | [], w => by
    simp only [List.foldl_nil, Option.some.injEq, List.not_mem_nil]
    constructor
    · intro h
      exact .inl ⟨h.symm, fun v hv => hv.elim⟩
    · rintro (⟨rfl, _⟩ | ⟨l₁, l₂, heq, _⟩)
      · rfl
      · cases l₁ <;> simp at heq
  | a :: g, w => by
    simp only [List.foldl_cons]
    by_cases hc : c a > c w
    · rw [if_pos hc, maxFold_some_iff c g a]
      constructor
      · rintro (⟨rfl, hall⟩ | ⟨l₁, l₂, rfl, hau, hl₁, hl₂⟩)
        · exact .inr ⟨[], g, rfl, hc, fun v hv => absurd hv (List.not_mem_nil v), hall⟩
        · refine .inr ⟨a :: l₁, l₂, rfl, Nat.lt_trans hc hau, ?_, hl₂⟩
          intro v hv
          rcases List.mem_cons.mp hv with rfl | hv'
          · exact hau
          · exact hl₁ v hv'
      · rintro (⟨rfl, hall⟩ | ⟨l₁, l₂, heq, hwu, hl₁, hl₂⟩)
        · exact absurd (hall a (List.mem_cons_self a g)) (Nat.not_le_of_lt hc)
        · cases l₁ with
          | nil =>
            simp only [List.nil_append] at heq
            injection heq with h1 h2
            subst h1; subst h2
            exact .inl ⟨rfl, hl₂⟩
          | cons b l₁' =>
            simp only [List.cons_append] at heq
            injection heq with h1 h2
            subst h1
            refine .inr ⟨l₁', l₂, h2, hl₁ a (List.mem_cons_self a l₁'), ?_, hl₂⟩
            intro v hv; exact hl₁ v (List.mem_cons_of_mem a hv)
    · rw [if_neg hc, maxFold_some_iff c g w]
      have hle : c a ≤ c w := Nat.le_of_not_lt hc
      constructor
      · rintro (⟨rfl, hall⟩ | ⟨l₁, l₂, rfl, hwu, hl₁, hl₂⟩)
        · refine .inl ⟨rfl, ?_⟩
          intro v hv
          rcases List.mem_cons.mp hv with rfl | hv'
          · exact hle
          · exact hall v hv'
        · refine .inr ⟨a :: l₁, l₂, rfl, hwu, ?_, hl₂⟩
          intro v hv
          rcases List.mem_cons.mp hv with rfl | hv'
          · exact Nat.lt_of_le_of_lt hle hwu
          · exact hl₁ v hv'
      · rintro (⟨rfl, hall⟩ | ⟨l₁, l₂, heq, hwu, hl₁, hl₂⟩)
        · exact .inl ⟨rfl, fun v hv => hall v (List.mem_cons_of_mem a hv)⟩
        · cases l₁ with
          | nil =>
            simp only [List.nil_append] at heq
            injection heq with h1 h2
            subst h1; subst h2
            exact absurd hwu (Nat.not_lt_of_le hle)
          | cons b l₁' =>
            simp only [List.cons_append] at heq
            injection heq with h1 h2
            subst h1
            refine .inr ⟨l₁', l₂, h2, hwu, ?_, hl₂⟩
            intro v hv; exact hl₁ v (List.mem_cons_of_mem a hv)

/-- Running strict maximum from the empty accumulator `(None, 0)`
(wrangler.py lines 68-69): the result is the first element attaining the
maximum count, among elements of positive count. -/
theorem maxFold_none_iff (c : String → Nat) {u : String} :
    ∀ (g : List String),
      (g.foldl (fun acc altTerm =>
        if c altTerm > acc.2 then (some altTerm, c altTerm) else acc) (none, 0)).1
          = some u ↔
        ∃ l₁ l₂, g = l₁ ++ u :: l₂ ∧ 0 < c u ∧
          (∀ v ∈ l₁, c v < c u) ∧ (∀ v ∈ l₂, c v ≤ c u)
  | [] => by
    simp only [List.foldl_nil]
    constructor
    · intro h; cases h
    · rintro ⟨l₁, l₂, heq, _⟩
      cases l₁ <;> simp at heq
  | a :: g => by
    simp only [List.foldl_cons]
    by_cases hc : c a > 0
    · rw [if_pos hc, maxFold_some_iff c g a]
      constructor
      · rintro (⟨rfl, hall⟩ | ⟨l₁, l₂, rfl, hau, hl₁, hl₂⟩)
        · exact ⟨[], g, rfl, hc, fun v hv => absurd hv (List.not_mem_nil v), hall⟩
        · refine ⟨a :: l₁, l₂, rfl, Nat.lt_trans hc hau, ?_, hl₂⟩
          intro v hv
          rcases List.mem_cons.mp hv with rfl | hv'
          · exact hau
          · exact hl₁ v hv'
      · rintro ⟨l₁, l₂, heq, hpos, hl₁, hl₂⟩
        cases l₁ with
        | nil =>
          simp only [List.nil_append] at heq
          injection heq with h1 h2
          subst h1; subst h2
          exact .inl ⟨rfl, hl₂⟩
        | cons b l₁' =>
          simp only [List.cons_append] at heq
          injection heq with h1 h2
          subst h1
          refine .inr ⟨l₁', l₂, h2, hl₁ a (List.mem_cons_self a l₁'), ?_, hl₂⟩
          intro v hv; exact hl₁ v (List.mem_cons_of_mem a hv)
    · rw [if_neg hc, maxFold_none_iff c g]
      have hz : c a = 0 := Nat.eq_zero_of_not_pos hc
      constructor
      · rintro ⟨l₁, l₂, rfl, hpos, hl₁, hl₂⟩
        refine ⟨a :: l₁, l₂, rfl, hpos, ?_, hl₂⟩
        intro v hv
        rcases List.mem_cons.mp hv with rfl | hv'
        · exact hz ▸ hpos
        · exact hl₁ v hv'
      · rintro ⟨l₁, l₂, heq, hpos, hl₁, hl₂⟩
        cases l₁ with
        | nil =>
          simp only [List.nil_append] at heq
          injection heq with h1 h2
          subst h1; subst h2
          exact absurd hpos (by simp [hz])
        | cons b l₁' =>
          simp only [List.cons_append] at heq
          injection heq with h1 h2
          subst h1
          exact ⟨l₁', l₂, h2, hpos, fun v hv => hl₁ v (List.mem_cons_of_mem a hv), hl₂⟩

/-- The fold never loses a `some` accumulator. -/
theorem maxFold_seeded_isSome (c : String → Nat) :
    ∀ (g : List String) (w : String) (cw : Nat),
      ∃ p n, g.foldl (fun acc altTerm =>
        if c altTerm > acc.2 then (some altTerm, c altTerm) else acc) (some w, cw) = (some p, n)
  | [], w, cw => ⟨w, cw, rfl⟩
  | a :: g, w, cw => by
    simp only [List.foldl_cons]
    by_cases hc : c a > cw
    · rw [if_pos hc]; exact maxFold_seeded_isSome c g a (c a)
    · rw [if_neg hc]; exact maxFold_seeded_isSome c g w cw

/-- The fold finds something as soon as some element has positive count. -/
theorem maxFold_none_isSome (c : String → Nat) :
    ∀ (g : List String), (∃ v ∈ g, 0 < c v) →
      ∃ p n, g.foldl (fun acc altTerm =>
        if c altTerm > acc.2 then (some altTerm, c altTerm) else acc) (none, 0) = (some p, n)
  | [], h => by rcases h with ⟨v, hv, _⟩; cases hv
  | a :: g, h => by
    simp only [List.foldl_cons]
    by_cases hc : c a > 0
    · rw [if_pos hc]; exact maxFold_seeded_isSome c g a (c a)
    · rw [if_neg hc]
      rcases h with ⟨v, hv, hvpos⟩
      rcases List.mem_cons.mp hv with rfl | hv'
      · exact absurd hvpos hc
      · exact maxFold_none_isSome c g ⟨v, hv', hvpos⟩

/-- Characterization of `_get_preferred_capitalization_`: it returns `u`
exactly when `u` is the first member of `term`'s case-insensitive group
attaining the group's maximum count. -/
theorem getPref_iff {terms : List String} {t u : String} :
    getPreferredCapitalization terms t = some u ↔ isFirstMaxOfGroup terms t u := by
  have h1 : getPreferredCapitalization terms t = some u ↔
      ∃ l₁ l₂, groupOf terms t = l₁ ++ u :: l₂ ∧ 0 < terms.count u ∧
        (∀ v ∈ l₁, terms.count v < terms.count u) ∧
        (∀ v ∈ l₂, terms.count v ≤ terms.count u) := by
    unfold getPreferredCapitalization prefAux
    rw [prefFold_filter]
    exact maxFold_none_iff (fun s => terms.count s) _
  rw [h1]
  unfold isFirstMaxOfGroup
  constructor
  · rintro ⟨l₁, l₂, heq, _, hl₁, hl₂⟩
    exact ⟨l₁, l₂, heq, hl₁, hl₂⟩
  · rintro ⟨l₁, l₂, heq, hl₁, hl₂⟩
    refine ⟨l₁, l₂, heq, ?_, hl₁, hl₂⟩
    have hu : u ∈ groupOf terms t := by
      rw [heq]
      exact List.mem_append_right l₁ (List.mem_cons_self u l₂)
    exact count_pos_of_mem_uniqueTerms (List.mem_filter.mp hu).1

theorem mem_groupOf_self {terms : List String} {t : String} (ht : t ∈ terms) :
    t ∈ groupOf terms t :=
  List.mem_filter.mpr ⟨mem_uniqueTerms.mpr ht, beq_self_eq_true _⟩

/-- For a term of the input, the preferred capitalization exists. -/
theorem getPref_isSome {terms : List String} {t : String} (ht : t ∈ terms) :
    ∃ p, getPreferredCapitalization terms t = some p := by
  unfold getPreferredCapitalization prefAux
  rw [prefFold_filter]
  obtain ⟨p, n, hp⟩ := maxFold_none_isSome (fun s => terms.count s) (groupOf terms t)
      ⟨t, mem_groupOf_self ht, List.count_pos_iff.mpr ht⟩
  exact ⟨p, congrArg Prod.fst hp⟩

theorem getPref_mem {terms : List String} {t u : String}
    (h : getPreferredCapitalization terms t = some u) : u ∈ uniqueTerms terms := by
  obtain ⟨l₁, l₂, heq, _, _⟩ := getPref_iff.mp h
  have hm : u ∈ groupOf terms t := by
    rw [heq]
    exact List.mem_append_right l₁ (List.mem_cons_self u l₂)
  exact (List.mem_filter.mp hm).1

theorem getPref_toLower {terms : List String} {t u : String}
    (h : getPreferredCapitalization terms t = some u) : strToLower t = strToLower u := by
  obtain ⟨l₁, l₂, heq, _, _⟩ := getPref_iff.mp h
  have hm : u ∈ groupOf terms t := by
    rw [heq]
    exact List.mem_append_right l₁ (List.mem_cons_self u l₂)
  exact eq_of_beq (List.mem_filter.mp hm).2

/-- The preferred capitalization dominates the counts of its whole
case-insensitive group. -/
theorem getPref_count_le {terms : List String} {t u v : String}
    (h : getPreferredCapitalization terms t = some u) (hv : v ∈ groupOf terms t) :
    terms.count v ≤ terms.count u := by
  obtain ⟨l₁, l₂, heq, hl₁, hl₂⟩ := getPref_iff.mp h
  rw [heq] at hv
  rcases List.mem_append.mp hv with hv1 | hv2
  · exact Nat.le_of_lt (hl₁ v hv1)
  · rcases List.mem_cons.mp hv2 with rfl | hv3
    · exact Nat.le_refl _
    · exact hl₂ v hv3

/-- The preferred capitalization only depends on the lowercased term. -/
theorem getPref_congr {terms : List String} {s t : String}
    (h : strToLower s = strToLower t) :
    getPreferredCapitalization terms s = getPreferredCapitalization terms t := by
  unfold getPreferredCapitalization
  rw [h]

/-- Full lookup law for `CapsWrangler.substitutions`. -/
theorem capsLookup_iff {terms : List String} {t u : String} :
    (capsSubstitutions terms).lookup t = some u ↔
      (t ∈ terms ∧ getPreferredCapitalization terms t = some u ∧ u ≠ t) := by
  rw [lookup_capsSubstitutions]
  by_cases ht : t ∈ terms
  · rw [if_pos ht]
    unfold capsSubFor
    cases hp : getPreferredCapitalization terms t with
    | none =>
      constructor
      · intro h; cases h
      · rintro ⟨-, hsome, -⟩
        cases hsome
    | some p =>
      show (if p = t then none else some p) = some u ↔ t ∈ terms ∧ some p = some u ∧ u ≠ t
      by_cases hpt : p = t
      · rw [if_pos hpt]
        constructor
        · intro h; cases h
        · rintro ⟨-, hsome, hne⟩
          injection hsome with h2
          exact absurd (h2 ▸ hpt) hne
      · rw [if_neg hpt]
        constructor
        · intro h
          injection h with h2
          subst h2
          exact ⟨ht, rfl, hpt⟩
        · rintro ⟨-, hsome, -⟩
          exact hsome
  · rw [if_neg ht]
    constructor
    · intro h; cases h
    · rintro ⟨h, -, -⟩
      exact absurd h ht

/-! ## The stable descending sort behind `extractBests` -/

theorem perm_insertScored (x : String × Nat) :
    ∀ (l : List (String × Nat)), List.Perm (insertScored x l) (x :: l)
  | [] => List.Perm.refl _
  | y :: ys => by
    unfold insertScored
    by_cases h : y.2 ≤ x.2
    · rw [if_pos h]
    · rw [if_neg h]
      exact ((perm_insertScored x ys).cons y).trans (List.Perm.swap x y ys)

theorem perm_sortScoredDesc : ∀ (l : List (String × Nat)), List.Perm (sortScoredDesc l) l
  | [] => List.Perm.refl _
  | x :: xs =>
    (perm_insertScored x (sortScoredDesc xs)).trans ((perm_sortScoredDesc xs).cons x)

theorem pairwise_insertScored {x : String × Nat} :
    ∀ {l : List (String × Nat)},
      l.Pairwise (fun a b => b.2 ≤ a.2) →
      (insertScored x l).Pairwise (fun a b => b.2 ≤ a.2)
  | [], _ => List.pairwise_singleton _ _
  | y :: ys, hp => by
    unfold insertScored
    by_cases h : y.2 ≤ x.2
    · rw [if_pos h]
      refine List.Pairwise.cons ?_ hp
      intro z hz
      rcases List.mem_cons.mp hz with rfl | hz'
      · exact h
      · exact Nat.le_trans ((List.pairwise_cons.mp hp).1 z hz') h
    · rw [if_neg h]
      have hys := (List.pairwise_cons.mp hp).2
      refine List.Pairwise.cons ?_ (pairwise_insertScored hys)
      intro z hz
      have hz' := (perm_insertScored x ys).mem_iff.mp hz
      rcases List.mem_cons.mp hz' with rfl | hz''
      · exact Nat.le_of_lt (Nat.lt_of_not_le h)
      · exact (List.pairwise_cons.mp hp).1 z hz''

theorem pairwise_sortScoredDesc : ∀ (l : List (String × Nat)),
    (sortScoredDesc l).Pairwise (fun a b => b.2 ≤ a.2)
  | [] => List.Pairwise.nil
  | x :: xs => pairwise_insertScored (pairwise_sortScoredDesc xs)

/-- Every entry produced by `extractBests2` is one of the scored choices. -/
theorem mem_extractBests2 {score : String → String → Nat} {query : String}
    {choices : List String} {p : String × Nat}
    (h : p ∈ extractBests2 score query choices) :
    p.1 ∈ choices ∧ p.2 = score query p.1 := by
  have h1 : p ∈ sortScoredDesc (choices.map fun c => (c, score query c)) :=
    List.take_subset 2 _ h
  have h2 : p ∈ choices.map fun c => (c, score query c) :=
    (perm_sortScoredDesc _).mem_iff.mp h1
  obtain ⟨c, hc, heq⟩ := List.mem_map.mp h2
  cases heq
  exact ⟨hc, rfl⟩

/-- When the query scores 100 against itself and strictly less against the
other (pairwise distinct) candidates, the stable descending sort ranks the
query first, and the runner-up — the candidate the fuzzy pass examines —
is a best-scoring candidate distinct from the query. -/
theorem extractBests2_self_top {score : String → String → Nat} {t : String}
    {choices : List String}
    (hmem : t ∈ choices) (hnd : choices.Nodup)
    (hself : score t t = 100)
    (hub : ∀ u ∈ choices, score t u ≤ 100)
    (hlt : ∀ u ∈ choices, u ≠ t → score t u < 100) :
    (choices.length = 1 → extractBests2 score t choices = [(t, 100)]) ∧
    (2 ≤ choices.length → ∃ u, u ∈ choices ∧ u ≠ t ∧
      extractBests2 score t choices = [(t, 100), (u, score t u)] ∧
      ∀ v ∈ choices, v ≠ t → score t v ≤ score t u) := by
  have hperm : List.Perm (sortScoredDesc (choices.map fun c => (c, score t c)))
      (choices.map fun c => (c, score t c)) := perm_sortScoredDesc _
  have hlen : (sortScoredDesc (choices.map fun c => (c, score t c))).length =
      choices.length := by
    rw [hperm.length_eq, List.length_map]
  have hpw := pairwise_sortScoredDesc (choices.map fun c => (c, score t c))
  have hmemt : (t, (100 : Nat)) ∈ sortScoredDesc (choices.map fun c => (c, score t c)) := by
    refine hperm.mem_iff.mpr ?_
    have h : ((t, score t t) : String × Nat) ∈ choices.map (fun c => (c, score t c)) :=
      List.mem_map_of_mem _ hmem
    rwa [hself] at h
  have helem : ∀ p ∈ sortScoredDesc (choices.map fun c => (c, score t c)),
      p.1 ∈ choices ∧ p.2 = score t p.1 := by
    intro p hp
    obtain ⟨c, hc, heq⟩ := List.mem_map.mp (hperm.mem_iff.mp hp)
    cases heq
    exact ⟨hc, rfl⟩
  have hkeys : ((sortScoredDesc (choices.map fun c => (c, score t c))).map Prod.fst).Nodup := by
    have h1 := hperm.map Prod.fst
    have h2 : (choices.map fun c => (c, score t c)).map Prod.fst = choices := by
      rw [List.map_map]
      exact List.map_id choices
    rw [h2] at h1
    exact h1.nodup_iff.mpr hnd
  constructor
  · intro hone
    rw [hone] at hlen
    cases hs : sortScoredDesc (choices.map fun c => (c, score t c)) with
    | nil => rw [hs] at hlen; simp at hlen
    | cons a tail =>
      cases tail with
      | nil =>
        rw [hs] at hmemt
        rcases List.mem_singleton.mp hmemt with rfl
        unfold extractBests2
        rw [hs]
        rfl
      | cons b tail2 =>
        rw [hs] at hlen
        simp only [List.length_cons] at hlen
        omega
  · intro htwo
    cases hs : sortScoredDesc (choices.map fun c => (c, score t c)) with
    | nil =>
      rw [hs] at hlen
      simp only [List.length_nil] at hlen
      omega
    | cons a tail =>
      cases tail with
      | nil =>
        rw [hs] at hlen
        simp only [List.length_cons, List.length_nil] at hlen
        omega
      | cons b rest =>
        rw [hs] at hmemt hpw hkeys
        have hae : a.1 ∈ choices ∧ a.2 = score t a.1 :=
          helem a (by rw [hs]; exact List.mem_cons_self _ _)
        have hbe : b.1 ∈ choices ∧ b.2 = score t b.1 :=
          helem b (by rw [hs]; exact List.mem_cons_of_mem _ (List.mem_cons_self _ _))
        have hpw1 := List.pairwise_cons.mp hpw
        have hpw2 := List.pairwise_cons.mp hpw1.2
        have ha : a = (t, 100) := by
          rcases List.mem_cons.mp hmemt with heq | hin
          · exact heq.symm
          · have h100 : 100 ≤ a.2 := hpw1.1 (t, 100) hin
            have ha2le : a.2 ≤ 100 := by rw [hae.2]; exact hub a.1 hae.1
            have ha2 : a.2 = 100 := Nat.le_antisymm ha2le h100
            have hat : a.1 = t := by
              by_contra hne
              have hlt' := hlt a.1 hae.1 hne
              rw [← hae.2] at hlt'
              omega
            have heta : a = (a.1, a.2) := rfl
            rw [hat, ha2] at heta
            exact heta
        have hab : a.1 ≠ b.1 := by
          simp only [List.map_cons] at hkeys
          have hnotin := (List.nodup_cons.mp hkeys).1
          intro h
          exact hnotin (by rw [h]; exact List.mem_cons_self _ _)
        have hbt : b.1 ≠ t := by
          intro h
          exact hab (by rw [ha, h])
        have hmax : ∀ v ∈ choices, v ≠ t → score t v ≤ score t b.1 := by
          intro v hv hvt
          have hvmem : (v, score t v) ∈ a :: b :: rest := by
            rw [← hs]
            exact hperm.mem_iff.mpr (List.mem_map_of_mem _ hv)
          rcases List.mem_cons.mp hvmem with heqa | hvm
          · exfalso
            apply hvt
            have hva : v = a.1 := by rw [← heqa]
            rw [hva, ha]
          · rcases List.mem_cons.mp hvm with heqb | hvr
            · have h1 : score t v = b.2 := by rw [← heqb]
              rw [h1, hbe.2]
            · have h2 : score t v ≤ b.2 := hpw2.1 (v, score t v) hvr
              rw [hbe.2] at h2
              exact h2
        refine ⟨b.1, hbe.1, hbt, ?_, hmax⟩
        unfold extractBests2
        rw [hs, ha]
        have hb : b = (b.1, score t b.1) := by rw [← hbe.2]
        rw [← hb]
        rfl

/-! ## The fuzzy normalizer's recording rule -/

/-- The candidate list with `limit=2` never has more than two entries. -/
theorem extractBests2_length_le {score : String → String → Nat} {query : String}
    {choices : List String} : (extractBests2 score query choices).length ≤ 2 := by
  unfold extractBests2
  exact List.length_take_le 2 _

/-- The recording rule of the fuzzy pass (wrangler.py lines 102-107): a
substitution is recorded for `t` exactly when the candidate list has a
second entry `(u, s)` whose score strictly exceeds the threshold and whose
count is at least `t`'s. -/
theorem textSubFor_eq_some_iff {score : String → String → Nat} {terms : List String}
    {threshold : Nat} {t u : String} :
    textSubFor score terms threshold t = some u ↔
      ∃ c s, extractBests2 score t (uniqueTerms terms) = [c, (u, s)] ∧
        threshold < s ∧ terms.count t ≤ terms.count u := by
  unfold textSubFor
  cases hx : extractBests2 score t (uniqueTerms terms) with
  | nil =>
    constructor
    · intro h; cases h
    · rintro ⟨c, s, heq, -⟩; cases heq
  | cons p1 tail =>
    cases tail with
    | nil =>
      constructor
      · intro h; cases h
      · rintro ⟨c, s, heq, -⟩
        injection heq with h1 h2
        cases h2
    | cons p2 tail2 =>
      cases tail2 with
      | nil =>
        show (if p2.2 > threshold ∧ terms.count p2.1 ≥ terms.count t
            then some p2.1 else none) = some u ↔ _
        by_cases hcond : p2.2 > threshold ∧ terms.count p2.1 ≥ terms.count t
        · rw [if_pos hcond]
          constructor
          · intro h
            injection h with h2
            subst h2
            exact ⟨p1, p2.2, rfl, hcond.1, hcond.2⟩
          · rintro ⟨c, s, heq, -, -⟩
            injection heq with h1 h2
            injection h2 with h3 h4
            rw [h3]
        · rw [if_neg hcond]
          constructor
          · intro h; cases h
          · rintro ⟨c, s, heq, hs, hcnt⟩
            injection heq with h1 h2
            injection h2 with h3 h4
            refine absurd ⟨?_, ?_⟩ hcond
            · rw [h3]; exact hs
            · rw [h3]; exact hcnt
      | cons p3 tail3 =>
        exfalso
        have hle := @extractBests2_length_le score t (uniqueTerms terms)
        rw [hx] at hle
        simp only [List.length_cons] at hle
        omega

/-- Full lookup law for `TextWrangler.substitutions`. -/
theorem textLookup_iff {score : String → String → Nat} {terms : List String}
    {threshold : Nat} {t u : String} :
    (textSubstitutions score terms threshold).lookup t = some u ↔
      (t ∈ terms ∧ ∃ c s, extractBests2 score t (uniqueTerms terms) = [c, (u, s)] ∧
        threshold < s ∧ terms.count t ≤ terms.count u) := by
  rw [lookup_textSubstitutions]
  by_cases ht : t ∈ terms
  · rw [if_pos ht, textSubFor_eq_some_iff]
    exact (and_iff_right ht).symm
  · rw [if_neg ht]
    constructor
    · intro h; cases h
    · rintro ⟨h, -⟩; exact absurd h ht

/-- Every value recorded by the fuzzy pass is one of its distinct terms. -/
theorem textLookup_value_mem {score : String → String → Nat} {terms : List String}
    {threshold : Nat} {t u : String}
    (h : (textSubstitutions score terms threshold).lookup t = some u) :
    u ∈ uniqueTerms terms := by
  obtain ⟨-, c, s, heq, -, -⟩ := textLookup_iff.mp h
  have hm : ((u, s) : String × Nat) ∈ extractBests2 score t (uniqueTerms terms) := by
    rw [heq]
    exact List.mem_cons_of_mem _ (List.mem_cons_self _ _)
  exact (mem_extractBests2 hm).1

/-! ## Dict semantics of the composite map -/

theorem lookup_dictInsert_self (k v : String) :
    ∀ (d : List (String × String)), (dictInsert d k v).lookup k = some v
  | [] => by simp [dictInsert]
  | (pk, pv) :: rest => by
    unfold dictInsert
    by_cases h : (pk, pv).1 = k
    · rw [if_pos h]
      exact List.lookup_cons_self
    · rw [if_neg h]
      have hb : (k == pk) = false := beq_false_of_ne fun e => h e.symm
      simp only [List.lookup_cons, hb]
      exact lookup_dictInsert_self k v rest

theorem lookup_dictInsert_ne {t k : String} (v : String) (hne : t ≠ k) :
    ∀ (d : List (String × String)), (dictInsert d k v).lookup t = d.lookup t
  | [] => by
    have hb : (t == k) = false := beq_false_of_ne hne
    simp [dictInsert, List.lookup_cons, hb]
  | (pk, pv) :: rest => by
    unfold dictInsert
    by_cases h : (pk, pv).1 = k
    · rw [if_pos h]
      have hb : (t == k) = false := beq_false_of_ne hne
      have hpk : pk = k := h
      have hb2 : (t == pk) = false := by rw [hpk]; exact hb
      simp [List.lookup_cons, hb, hb2]
    · rw [if_neg h]
      simp only [List.lookup_cons]
      cases hb : t == pk with
      | true => rfl
      | false => exact lookup_dictInsert_ne v hne rest

/-- The second loop of `Wrangler.substitutions`, which dict-assigns every
entry of a map with duplicate-free keys on top of `d`: its own entries
win, everything else falls through to `d`. -/
theorem lookup_foldl_dictInsert {t : String} :
    ∀ (ps : List (String × String)) (d : List (String × String)),
      (ps.map Prod.fst).Nodup →
      (ps.foldl (fun d p => dictInsert d p.1 p.2) d).lookup t =
        (ps.lookup t).or (d.lookup t)
  | [], d, _ => rfl
  | (pk, pv) :: ps, d, hnd => by
    simp only [List.foldl_cons]
    have hnd' : (ps.map Prod.fst).Nodup := by
      simp only [List.map_cons] at hnd
      exact (List.nodup_cons.mp hnd).2
    rw [lookup_foldl_dictInsert ps (dictInsert d pk pv) hnd']
    by_cases ht : t = pk
    · subst ht
      have hps : ps.lookup t = none := by
        rw [List.lookup_eq_none_iff]
        intro p hp
        simp only [List.map_cons] at hnd
        have hnotin := (List.nodup_cons.mp hnd).1
        have hne : t ≠ p.1 := by
          intro e
          exact hnotin (e ▸ List.mem_map_of_mem Prod.fst hp)
        simpa using hne
      rw [hps, lookup_dictInsert_self, List.lookup_cons_self]
      rfl
    · rw [lookup_dictInsert_ne pv ht]
      have hskip : ((pk, pv) :: ps).lookup t = ps.lookup t := by
        have hb : (t == pk) = false := beq_false_of_ne ht
        simp [List.lookup_cons, hb]
      rw [hskip]

/-- The first loop of `Wrangler.substitutions` only rewrites values. -/
theorem lookup_map_value (f : String → String) {t : String} :
    ∀ (ps : List (String × String)),
      (ps.map fun p => (p.1, f p.2)).lookup t = (ps.lookup t).map f
  | [] => rfl
  | (pk, pv) :: ps => by
    simp only [List.map_cons, List.lookup_cons]
    cases hb : t == pk with
    | true => rfl
    | false => exact lookup_map_value f ps

/-- The keys of a `filterMap`-built substitution dict form a sublist of
the distinct terms. -/
theorem entryList_keys_sublist (f : String → Option String) :
    ∀ (l : List String),
      List.Sublist ((l.filterMap fun x => (f x).map fun u => (x, u)).map Prod.fst) l
  | [] => List.Sublist.refl _
  | x :: l => by
    rw [List.filterMap_cons]
    cases hfx : f x with
    | none => exact List.Sublist.cons x (entryList_keys_sublist f l)
    | some u =>
      simp only [Option.map_some', List.map_cons]
      exact List.Sublist.cons₂ x (entryList_keys_sublist f l)

theorem textSubstitutions_keys_nodup (score : String → String → Nat) (terms : List String)
    (threshold : Nat) :
    ((textSubstitutions score terms threshold).map Prod.fst).Nodup :=
  List.Sublist.nodup (entryList_keys_sublist _ _) (nodup_uniqueTerms terms)

/-- Lookup law for `Wrangler.substitutions` (wrangler.py lines 119-129):
the text map wins on its own keys (the second loop); otherwise the caps
entry is returned with its value redirected through the text map (the
first loop). -/
theorem lookup_wranglerSubstitutions (score : String → String → Nat) (terms : List String)
    (t : String) :
    (wranglerSubstitutions score terms).lookup t =
      ((textSubstitutions score (wrangledTerms (capsSubstitutions terms) terms)
          defaultThreshold).lookup t).or
        (((capsSubstitutions terms).lookup t).map
          (applySubs (textSubstitutions score
            (wrangledTerms (capsSubstitutions terms) terms) defaultThreshold))) := by
  have h1 := @lookup_foldl_dictInsert t
      (textSubstitutions score (wrangledTerms (capsSubstitutions terms) terms)
        defaultThreshold)
      ((capsSubstitutions terms).map fun p => (p.1,
        applySubs (textSubstitutions score (wrangledTerms (capsSubstitutions terms) terms)
          defaultThreshold) p.2))
      (textSubstitutions_keys_nodup _ _ _)
  have h2 := @lookup_map_value
      (applySubs (textSubstitutions score (wrangledTerms (capsSubstitutions terms) terms)
        defaultThreshold)) t
      (capsSubstitutions terms)
  rw [h2] at h1
  exact h1

/-! ## Structure of the capitalization pass and its wrangled output -/

/-- Applying the caps substitutions to an input term lands on its
preferred capitalization, whether or not a substitution was recorded. -/
theorem capsApply_eq_pref {terms : List String} {s p : String} (hs : s ∈ terms)
    (hp : getPreferredCapitalization terms s = some p) :
    applySubs (capsSubstitutions terms) s = p := by
  unfold applySubs
  by_cases hps : p = s
  · subst hps
    have hnone : (capsSubstitutions terms).lookup p = none := by
      rw [lookup_capsSubstitutions, if_pos hs]
      unfold capsSubFor
      rw [hp]
      show (if p = p then none else some p) = none
      rw [if_pos rfl]
    rw [hnone]
    rfl
  · have hsome : (capsSubstitutions terms).lookup s = some p :=
      capsLookup_iff.mpr ⟨hs, hp, hps⟩
    rw [hsome]
    rfl

/-- A term the caps pass substitutes away never survives into the
wrangled sequence (not even as another term's replacement). -/
theorem capsKey_not_mem_wrangled {terms : List String} {t u : String}
    (h : (capsSubstitutions terms).lookup t = some u) :
    t ∉ wrangledTerms (capsSubstitutions terms) terms := by
  obtain ⟨ht, hp, hne⟩ := capsLookup_iff.mp h
  intro hmem
  obtain ⟨s, hs, heq⟩ := List.mem_map.mp hmem
  obtain ⟨q, hq⟩ := getPref_isSome hs
  have hsq : applySubs (capsSubstitutions terms) s = q := capsApply_eq_pref hs hq
  have htq : t = q := by rw [← heq, hsq]
  have h1 : strToLower s = strToLower q := getPref_toLower hq
  have h2 : strToLower t = strToLower s := by rw [htq, h1]
  have h3 : getPreferredCapitalization terms t = some q := by
    rw [@getPref_congr terms t s h2]
    exact hq
  rw [hp] at h3
  injection h3 with h4
  exact hne (by rw [h4, ← htq])

/-- Every element of the caps-wrangled sequence is one of the original
input terms. -/
theorem mem_of_mem_wrangled {terms : List String} {v : String}
    (h : v ∈ wrangledTerms (capsSubstitutions terms) terms) : v ∈ terms := by
  obtain ⟨s, hs, heq⟩ := List.mem_map.mp h
  obtain ⟨q, hq⟩ := getPref_isSome hs
  have hsq := capsApply_eq_pref hs hq
  rw [hsq] at heq
  rw [← heq]
  exact mem_uniqueTerms.mp (getPref_mem hq)

/-- After the caps pass, distinct surviving terms have distinct lowercase
forms: each case-insensitive group is collapsed to one representative. -/
theorem wrangled_toLower_inj {terms : List String} {u1 u2 : String}
    (h1 : u1 ∈ wrangledTerms (capsSubstitutions terms) terms)
    (h2 : u2 ∈ wrangledTerms (capsSubstitutions terms) terms)
    (hlow : strToLower u1 = strToLower u2) : u1 = u2 := by
  obtain ⟨s1, hs1, he1⟩ := List.mem_map.mp h1
  obtain ⟨s2, hs2, he2⟩ := List.mem_map.mp h2
  obtain ⟨q1, hq1⟩ := getPref_isSome hs1
  obtain ⟨q2, hq2⟩ := getPref_isSome hs2
  have ha1 := capsApply_eq_pref hs1 hq1
  have ha2 := capsApply_eq_pref hs2 hq2
  rw [ha1] at he1
  rw [ha2] at he2
  subst he1
  subst he2
  have hl1 : strToLower s1 = strToLower q1 := getPref_toLower hq1
  have hl2 : strToLower s2 = strToLower q2 := getPref_toLower hq2
  have hss : strToLower s1 = strToLower s2 := by rw [hl1, hl2, hlow]
  have hc : getPreferredCapitalization terms s1 = getPreferredCapitalization terms s2 :=
    @getPref_congr terms s1 s2 hss
  rw [hq1, hq2] at hc
  injection hc

/-- A duplicate-free list whose predicate singles out `u` filters to `[u]`. -/
theorem filter_eq_singleton_of_unique {l : List String} {u : String} {p : String → Bool}
    (hnd : l.Nodup) (hu : u ∈ l) (hp : p u = true)
    (hOnly : ∀ v ∈ l, p v = true → v = u) :
    l.filter p = [u] := by
  induction l with
  | nil => cases hu
  | cons a l ih =>
    rw [List.filter_cons]
    rcases List.mem_cons.mp hu with rfl | hul
    · rw [if_pos hp]
      congr 1
      rw [List.filter_eq_nil_iff]
      intro v hv hpv
      have hvu := hOnly v (List.mem_cons_of_mem _ hv) hpv
      subst hvu
      exact (List.nodup_cons.mp hnd).1 hv
    · have hau : a ≠ u := by
        intro e
        exact (List.nodup_cons.mp hnd).1 (e ▸ hul)
      have hpa : ¬p a = true := fun hpa => hau (hOnly a (List.mem_cons_self _ _) hpa)
      rw [if_neg hpa]
      exact ih (List.nodup_cons.mp hnd).2 hul
        fun v hv hpv => hOnly v (List.mem_cons_of_mem a hv) hpv

/-- On the caps-wrangled sequence every term is its own preferred
capitalization: its case-insensitive group is a singleton. -/
theorem getPref_wrangled_self {terms : List String} {u : String}
    (hu : u ∈ wrangledTerms (capsSubstitutions terms) terms) :
    getPreferredCapitalization (wrangledTerms (capsSubstitutions terms) terms) u = some u := by
  rw [getPref_iff]
  have hgrp : groupOf (wrangledTerms (capsSubstitutions terms) terms) u = [u] :=
    filter_eq_singleton_of_unique (nodup_uniqueTerms _) (mem_uniqueTerms.mpr hu)
      (beq_self_eq_true _)
      (fun v hv hpv => wrangled_toLower_inj (mem_uniqueTerms.mp hv) hu (eq_of_beq hpv).symm)
  exact ⟨[], [], by rw [hgrp]; rfl, fun v hv => absurd hv (List.not_mem_nil v),
    fun v hv => absurd hv (List.not_mem_nil v)⟩

/-! ## Remaining helper lemmas -/

theorem applySubs_of_lookup_some {subs : List (String × String)} {t v : String}
    (h : subs.lookup t = some v) : applySubs subs t = v := by
  unfold applySubs
  rw [h]
  rfl

theorem applySubs_of_lookup_none {subs : List (String × String)} {t : String}
    (h : subs.lookup t = none) : applySubs subs t = t := by
  unfold applySubs
  rw [h]
  rfl

/-- The candidate list with `limit=2` has `min 2 |choices|` entries. -/
theorem extractBests2_length {score : String → String → Nat} {query : String}
    {choices : List String} :
    (extractBests2 score query choices).length = min 2 choices.length := by
  unfold extractBests2
  rw [List.length_take, (perm_sortScoredDesc _).length_eq, List.length_map]

/-- Every value of the composite map is an element of the caps-wrangled
sequence (in particular it is never a key of the caps map). -/
theorem wranglerValue_mem_wrangled {score : String → String → Nat} {terms : List String}
    {t u : String}
    (h : (wranglerSubstitutions score terms).lookup t = some u) :
    u ∈ wrangledTerms (capsSubstitutions terms) terms := by
  rw [lookup_wranglerSubstitutions] at h
  cases htext : (textSubstitutions score (wrangledTerms (capsSubstitutions terms) terms)
      defaultThreshold).lookup t with
  | some v =>
    rw [htext] at h
    injection h with h2
    rw [← h2]
    exact mem_uniqueTerms.mp (textLookup_value_mem htext)
  | none =>
    rw [htext] at h
    simp only [Option.none_or] at h
    cases hcaps : (capsSubstitutions terms).lookup t with
    | none => rw [hcaps] at h; cases h
    | some c =>
      rw [hcaps] at h
      simp only [Option.map_some'] at h
      injection h with h2
      obtain ⟨ht, hp, -⟩ := capsLookup_iff.mp hcaps
      have hcw : c ∈ wrangledTerms (capsSubstitutions terms) terms := by
        have hlk : applySubs (capsSubstitutions terms) t = c := applySubs_of_lookup_some hcaps
        rw [← hlk]
        exact List.mem_map_of_mem _ ht
      rw [← h2]
      cases htc : (textSubstitutions score (wrangledTerms (capsSubstitutions terms) terms)
          defaultThreshold).lookup c with
      | none =>
        rw [applySubs_of_lookup_none htc]
        exact hcw
      | some v2 =>
        rw [applySubs_of_lookup_some htc]
        exact mem_uniqueTerms.mp (textLookup_value_mem htc)

/-- When no distinct pair of the fuzzy pass's input terms ties at score
100, the fuzzy pass never maps a term to itself: the examined runner-up
is genuinely distinct from the term. -/
theorem textLookup_ne_self {score : String → String → Nat} {l : List String}
    {threshold : Nat} {t u : String}
    (h1 : ∀ v ∈ l, score v v = 100)
    (h2 : ∀ v ∈ l, ∀ w ∈ l, score v w ≤ 100)
    (h3 : ∀ v ∈ l, ∀ w ∈ l, w ≠ v → score v w < 100)
    (h : (textSubstitutions score l threshold).lookup t = some u) : u ≠ t := by
  obtain ⟨ht, c, s, hx, -, -⟩ := textLookup_iff.mp h
  have hlen2 : 2 ≤ (uniqueTerms l).length := by
    have hl := @extractBests2_length score t (uniqueTerms l)
    rw [hx] at hl
    simp only [List.length_cons, List.length_nil] at hl
    omega
  obtain ⟨u', hu', hne', hx2, -⟩ :=
    (extractBests2_self_top (mem_uniqueTerms.mpr ht) (nodup_uniqueTerms l)
      (h1 t ht)
      (fun w hw => h2 t ht w (mem_uniqueTerms.mp hw))
      (fun w hw hwt => h3 t ht w (mem_uniqueTerms.mp hw) hwt)).2 hlen2
  rw [hx] at hx2
  injection hx2 with ha hb
  injection hb with hc hd
  have huu : u = u' := congrArg Prod.fst hc
  rw [huu]
  exact hne'

/-! ## Claim theorems -/

/-- C1 (amended): every raw input term resolves through a single lookup of
the Composite Normalizer's map to the result of applying the caps
substitution and then the fuzzy substitution (computed over the
caps-normalized sequence); and no value of the composite map is a key of
the *capitalization* map.  (As stated, the claim's stronger "no value is
a key of the composite map" is false: the fuzzy pass can substitute — or
self-substitute — a term that is also a composite value; see the
counterexample.) -/
theorem wrangler_single_lookup_amended (score : String → String → Nat)
    (terms : List String) :
    (∀ t ∈ terms, applySubs (wranglerSubstitutions score terms) t =
      applySubs (textSubstitutions score (wrangledTerms (capsSubstitutions terms) terms)
        defaultThreshold) (applySubs (capsSubstitutions terms) t)) ∧
    (∀ t u, (wranglerSubstitutions score terms).lookup t = some u →
      (capsSubstitutions terms).lookup u = none) := by
  constructor
  · intro t ht
    cases hcaps : (capsSubstitutions terms).lookup t with
    | some c =>
      have hnotw := capsKey_not_mem_wrangled hcaps
      have htext : (textSubstitutions score (wrangledTerms (capsSubstitutions terms) terms)
          defaultThreshold).lookup t = none := by
        rw [lookup_textSubstitutions, if_neg hnotw]
      have hcomp : (wranglerSubstitutions score terms).lookup t =
          some (applySubs (textSubstitutions score
            (wrangledTerms (capsSubstitutions terms) terms) defaultThreshold) c) := by
        rw [lookup_wranglerSubstitutions, htext, hcaps]
        rfl
      rw [applySubs_of_lookup_some hcomp, applySubs_of_lookup_some hcaps]
    | none =>
      rw [applySubs_of_lookup_none hcaps]
      have hcomp : (wranglerSubstitutions score terms).lookup t =
          (textSubstitutions score (wrangledTerms (capsSubstitutions terms) terms)
            defaultThreshold).lookup t := by
        rw [lookup_wranglerSubstitutions, hcaps]
        rw [Option.map_none', Option.or_none]
      cases htext : (textSubstitutions score (wrangledTerms (capsSubstitutions terms) terms)
          defaultThreshold).lookup t with
      | some v =>
        rw [applySubs_of_lookup_some (hcomp.trans htext),
          applySubs_of_lookup_some htext]
      | none =>
        rw [applySubs_of_lookup_none (hcomp.trans htext),
          applySubs_of_lookup_none htext]
  · intro t u h
    cases hcu : (capsSubstitutions terms).lookup u with
    | none => rfl
    | some c => exact absurd (wranglerValue_mem_wrangled h) (capsKey_not_mem_wrangled hcu)

/-- Witness for C1's amended theorem at a concrete input: "ab" chains
through the caps pass to "Ab" in one composite lookup, and the composite
value "Ab" is not a caps key. -/
theorem wrangler_single_lookup_amended_witness :
    applySubs (wranglerSubstitutions simScore ["Ab", "ab"]) "ab" =
      applySubs (textSubstitutions simScore
        (wrangledTerms (capsSubstitutions ["Ab", "ab"]) ["Ab", "ab"]) defaultThreshold)
        (applySubs (capsSubstitutions ["Ab", "ab"]) "ab") ∧
    (capsSubstitutions ["Ab", "ab"]).lookup "Ab" = none :=
  ⟨(wrangler_single_lookup_amended simScore ["Ab", "ab"]).1 "ab" (by decide),
   (wrangler_single_lookup_amended simScore ["Ab", "ab"]).2 "ab" "Ab" (by decide)⟩

/-- Counterexample to C1 as stated: on input ["ab.", "ab!"] (two distinct
terms that the library scorer ties at 100, since both preprocess to
"ab"), the composite map sends "ab." to "ab!", yet "ab!" is itself a key
of the composite map — a value of the exposed map is one of its keys. -/
theorem wrangler_single_hop_cex :
    (wranglerSubstitutions simScore ["ab.", "ab!"]).lookup "ab." = some "ab!" ∧
    ((wranglerSubstitutions simScore ["ab.", "ab!"]).lookup "ab!").isSome = true :=
  ⟨by decide, by decide⟩

/-- C2: for a term `t` of the input, the caps map records `t ↦ u` exactly
when `u` is the first member of `t`'s case-insensitive group attaining
the group's maximum frequency count and `u` differs from `t`; in
particular a singleton group, or `t` itself holding the strict maximum,
records nothing. -/
theorem capsWrangler_substitutions_spec (terms : List String) (t : String)
    (ht : t ∈ terms) :
    (∀ u, (capsSubstitutions terms).lookup t = some u ↔
      (isFirstMaxOfGroup terms t u ∧ u ≠ t)) ∧
    (groupOf terms t = [t] → (capsSubstitutions terms).lookup t = none) ∧
    ((∀ v ∈ groupOf terms t, v ≠ t → terms.count v < terms.count t) →
      (capsSubstitutions terms).lookup t = none) := by
  refine ⟨?_, ?_, ?_⟩
  · intro u
    rw [capsLookup_iff]
    constructor
    · rintro ⟨-, hp, hne⟩
      exact ⟨getPref_iff.mp hp, hne⟩
    · rintro ⟨hfm, hne⟩
      exact ⟨ht, getPref_iff.mpr hfm, hne⟩
  · intro hgrp
    obtain ⟨p, hp⟩ := getPref_isSome ht
    have hpt : p = t := by
      obtain ⟨l₁, l₂, heq, -, -⟩ := getPref_iff.mp hp
      rw [hgrp] at heq
      cases l₁ with
      | nil =>
        injection heq with h1 h2
        exact h1.symm
      | cons a l₁' =>
        injection heq with h1 h2
        cases l₁' <;> cases h2
    rw [lookup_capsSubstitutions, if_pos ht]
    unfold capsSubFor
    rw [hp, hpt]
    show (if t = t then none else some t) = none
    rw [if_pos rfl]
  · intro hmax
    obtain ⟨p, hp⟩ := getPref_isSome ht
    obtain ⟨l₁, l₂, heq, -, -⟩ := getPref_iff.mp hp
    have hpg : p ∈ groupOf terms t := by
      rw [heq]
      exact List.mem_append_right l₁ (List.mem_cons_self p l₂)
    have hpt : p = t := by
      by_contra hne
      have hlt' := hmax p hpg hne
      have hle := getPref_count_le hp (mem_groupOf_self ht)
      omega
    rw [lookup_capsSubstitutions, if_pos ht]
    unfold capsSubFor
    rw [hp, hpt]
    show (if t = t then none else some t) = none
    rw [if_pos rfl]

/-- Witness for C2 at the spec's §8 scenario 1: on
["Apple", "apple", "apple", "APPLE"], "APPLE" maps to "apple", the
first-encountered maximum-count member of its group. -/
theorem capsWrangler_substitutions_spec_witness :
    (capsSubstitutions ["Apple", "apple", "apple", "APPLE"]).lookup "APPLE" =
      some "apple" :=
  ((capsWrangler_substitutions_spec ["Apple", "apple", "apple", "APPLE"] "APPLE"
      (by decide)).1 "apple").mpr
    ⟨⟨["Apple"], ["APPLE"], by decide, by decide, by decide⟩, by decide⟩

/-- C3 (amended): the top-ranked candidate always carries score 100, and
*when no other candidate ties the query at 100* it is the query `t`
itself, so the runner-up the pass examines is a best-scoring term
distinct from `t`; with fewer than two distinct candidates no
substitution is recorded for `t`.  (As stated — "the top-ranked candidate
is always `t` itself" — the claim is false: the library scorer gives 100
to distinct strings that coincide after preprocessing; see the
counterexample.) -/
theorem textWrangler_ranking_amended (score : String → String → Nat) (l : List String)
    (threshold : Nat) (t : String) (ht : t ∈ l)
    (hself : score t t = 100)
    (hub : ∀ u ∈ l, score t u ≤ 100)
    (hlt : ∀ u ∈ l, u ≠ t → score t u < 100) :
    ((uniqueTerms l).length < 2 →
      extractBests2 score t (uniqueTerms l) = [(t, 100)] ∧
      textSubFor score l threshold t = none) ∧
    (2 ≤ (uniqueTerms l).length → ∃ u, u ∈ l ∧ u ≠ t ∧
      extractBests2 score t (uniqueTerms l) = [(t, 100), (u, score t u)] ∧
      ∀ v ∈ l, v ≠ t → score t v ≤ score t u) := by
  have hmem : t ∈ uniqueTerms l := mem_uniqueTerms.mpr ht
  have hub' : ∀ u ∈ uniqueTerms l, score t u ≤ 100 :=
    fun u hu => hub u (mem_uniqueTerms.mp hu)
  have hlt' : ∀ u ∈ uniqueTerms l, u ≠ t → score t u < 100 :=
    fun u hu => hlt u (mem_uniqueTerms.mp hu)
  have hmain := extractBests2_self_top hmem (nodup_uniqueTerms l) hself hub' hlt'
  constructor
  · intro hlen
    have hpos : 0 < (uniqueTerms l).length := List.length_pos_of_mem hmem
    have hone : (uniqueTerms l).length = 1 := by omega
    have hx := hmain.1 hone
    refine ⟨hx, ?_⟩
    unfold textSubFor
    rw [hx]
  · intro htwo
    obtain ⟨u, hu, hne, hx, hbest⟩ := hmain.2 htwo
    exact ⟨u, mem_uniqueTerms.mp hu, hne, hx,
      fun v hv hvt => hbest v (mem_uniqueTerms.mpr hv) hvt⟩

/-- Witness for C3's amended theorem at the spec's §8 scenario 2 pair:
for "color" against ["color", "colour"] the top-ranked candidate is
"color" itself and "colour" is the examined runner-up. -/
theorem textWrangler_ranking_amended_witness :
    ∃ u, u ∈ ["color", "colour"] ∧ u ≠ "color" ∧
      extractBests2 nearScore "color" (uniqueTerms ["color", "colour"]) =
        [("color", 100), (u, nearScore "color" u)] ∧
      ∀ v ∈ ["color", "colour"], v ≠ "color" → nearScore "color" v ≤ nearScore "color" u :=
  (textWrangler_ranking_amended nearScore ["color", "colour"] 94 "color" (by decide)
    (by decide) (by decide) (by decide)).2 (by decide)

/-- Counterexample to C3 as stated: on input ["ab.", "ab!"] both terms
preprocess to "ab", so the scorer (like `WRatio`) ties them at 100; the
stable descending sort then ranks "ab." first for the query "ab!" — the
top-ranked candidate is not the query itself — and the examined
runner-up is "ab!" itself. -/
theorem textWrangler_top_ranked_cex :
    (extractBests2 simScore "ab!" (uniqueTerms ["ab.", "ab!"])).head? =
      some ("ab.", 100) ∧
    ("ab." : String) ≠ "ab!" ∧
    textSubFor simScore ["ab.", "ab!"] 94 "ab!" = some "ab!" :=
  ⟨by decide, by decide, by decide⟩

/-- C4: the fuzzy pass records `t ↦ u` if and only if the candidate list
for `t` has a second entry `(u, s)` with `s` strictly above the threshold
and `count u ≥ count t`; consequently every recorded pair satisfies
`count u ≥ count t`. -/
theorem textWrangler_records_iff (score : String → String → Nat) (terms : List String)
    (threshold : Nat) (t u : String) (ht : t ∈ terms) :
    ((textSubstitutions score terms threshold).lookup t = some u ↔
      ∃ c s, extractBests2 score t (uniqueTerms terms) = [c, (u, s)] ∧
        threshold < s ∧ terms.count t ≤ terms.count u) ∧
    (∀ t' u', (textSubstitutions score terms threshold).lookup t' = some u' →
      terms.count t' ≤ terms.count u') := by
  constructor
  · rw [textLookup_iff]
    exact and_iff_right ht
  · intro t' u' h
    obtain ⟨-, c, s, -, -, hcnt⟩ := textLookup_iff.mp h
    exact hcnt

/-- Witness for C4 at the spec's §8 scenario 2: on
["color", "color", "colour"] the fuzzy pass records "colour" ↦ "color"
(runner-up score 96 > 94, count 2 ≥ 1). -/
theorem textWrangler_records_iff_witness :
    (textSubstitutions nearScore ["color", "color", "colour"] 94).lookup "colour" =
      some "color" :=
  ((textWrangler_records_iff nearScore ["color", "color", "colour"] 94 "colour" "color"
      (by decide)).1).mpr
    ⟨("colour", 100), 96, by decide, by decide, by decide⟩

/-- C5 (amended): the caps map never maps a term to itself; the fuzzy and
composite maps never map a term to itself *provided no two distinct terms
of the fuzzy pass's input tie at score 100*.  (As stated — no normalizer
ever self-maps — the claim is false: with the library scorer, 100-ties
make the examined runner-up the term itself; see the counterexample.) -/
theorem no_self_mapping_amended (score : String → String → Nat) (terms l : List String)
    (threshold : Nat) :
    (∀ t u, (capsSubstitutions terms).lookup t = some u → u ≠ t) ∧
    ((∀ v ∈ l, score v v = 100) →
      (∀ v ∈ l, ∀ w ∈ l, score v w ≤ 100) →
      (∀ v ∈ l, ∀ w ∈ l, w ≠ v → score v w < 100) →
      ∀ t u, (textSubstitutions score l threshold).lookup t = some u → u ≠ t) ∧
    ((∀ v ∈ wrangledTerms (capsSubstitutions terms) terms, score v v = 100) →
      (∀ v ∈ wrangledTerms (capsSubstitutions terms) terms,
        ∀ w ∈ wrangledTerms (capsSubstitutions terms) terms, score v w ≤ 100) →
      (∀ v ∈ wrangledTerms (capsSubstitutions terms) terms,
        ∀ w ∈ wrangledTerms (capsSubstitutions terms) terms, w ≠ v → score v w < 100) →
      ∀ t u, (wranglerSubstitutions score terms).lookup t = some u → u ≠ t) := by
  refine ⟨?_, ?_, ?_⟩
  · intro t u h
    exact (capsLookup_iff.mp h).2.2
  · intro h1 h2 h3 t u h
    exact textLookup_ne_self h1 h2 h3 h
  · intro h1 h2 h3 t u h
    have hu_w := wranglerValue_mem_wrangled h
    rw [lookup_wranglerSubstitutions] at h
    cases htext : (textSubstitutions score (wrangledTerms (capsSubstitutions terms) terms)
        defaultThreshold).lookup t with
    | some v =>
      rw [htext] at h
      injection h with h4
      rw [← h4]
      exact textLookup_ne_self h1 h2 h3 htext
    | none =>
      rw [htext] at h
      simp only [Option.none_or] at h
      cases hcaps : (capsSubstitutions terms).lookup t with
      | none =>
        rw [hcaps] at h
        cases h
      | some c =>
        intro he
        exact capsKey_not_mem_wrangled hcaps (he ▸ hu_w)

/-- Witness for C5's amended theorem: "apple" ↦ "Apple" in the caps and
composite maps and "colour" ↦ "color" in the fuzzy map, none of which is
a self-mapping. -/
theorem no_self_mapping_amended_witness :
    (capsSubstitutions ["Apple", "apple"]).lookup "apple" = some "Apple" ∧
    ("Apple" : String) ≠ "apple" ∧
    (textSubstitutions nearScore ["color", "color", "colour"] 94).lookup "colour" =
      some "color" ∧
    ("color" : String) ≠ "colour" ∧
    (wranglerSubstitutions nearScore ["Apple", "apple"]).lookup "apple" = some "Apple" ∧
    ("Apple" : String) ≠ "apple" := by
  have h := no_self_mapping_amended nearScore ["Apple", "apple"]
      ["color", "color", "colour"] 94
  exact ⟨by decide, h.1 "apple" "Apple" (by decide), by decide,
    h.2.1 (by decide) (by decide) (by decide) "colour" "color" (by decide), by decide,
    h.2.2 (by decide) (by decide) (by decide) "apple" "Apple" (by decide)⟩

/-- Counterexample to C5 as stated: on input ["ab.", "ab!"] (tied at 100
by the library scorer) both the fuzzy and the composite map send "ab!" to
itself. -/
theorem no_self_mapping_cex :
    (textSubstitutions simScore ["ab.", "ab!"] 94).lookup "ab!" = some "ab!" ∧
    (wranglerSubstitutions simScore ["ab.", "ab!"]).lookup "ab!" = some "ab!" :=
  ⟨by decide, by decide⟩

/-- C6: for each normalizer, every key and every value of its
substitutions map belongs to the (distinct terms of the) original input
sequence supplied to that normalizer — no term is ever substituted with
one outside the input. -/
theorem domain_closure (score : String → String → Nat) (terms l : List String)
    (threshold : Nat) :
    (∀ t u, (capsSubstitutions terms).lookup t = some u → t ∈ terms ∧ u ∈ terms) ∧
    (∀ t u, (textSubstitutions score l threshold).lookup t = some u → t ∈ l ∧ u ∈ l) ∧
    (∀ t u, (wranglerSubstitutions score terms).lookup t = some u →
      t ∈ terms ∧ u ∈ terms) := by
  refine ⟨?_, ?_, ?_⟩
  · intro t u h
    obtain ⟨ht, hp, -⟩ := capsLookup_iff.mp h
    exact ⟨ht, mem_uniqueTerms.mp (getPref_mem hp)⟩
  · intro t u h
    exact ⟨(textLookup_iff.mp h).1, mem_uniqueTerms.mp (textLookup_value_mem h)⟩
  · intro t u h
    refine ⟨?_, mem_of_mem_wrangled (wranglerValue_mem_wrangled h)⟩
    rw [lookup_wranglerSubstitutions] at h
    cases htext : (textSubstitutions score (wrangledTerms (capsSubstitutions terms) terms)
        defaultThreshold).lookup t with
    | some v => exact mem_of_mem_wrangled (textLookup_iff.mp htext).1
    | none =>
      rw [htext] at h
      simp only [Option.none_or] at h
      cases hcaps : (capsSubstitutions terms).lookup t with
      | none =>
        rw [hcaps] at h
        cases h
      | some c => exact (capsLookup_iff.mp hcaps).1

/-- Witness for C6 at concrete inputs, one per normalizer. -/
theorem domain_closure_witness :
    ("apple" ∈ ["Apple", "apple"] ∧ "Apple" ∈ ["Apple", "apple"]) ∧
    ("colour" ∈ ["color", "color", "colour"] ∧ "color" ∈ ["color", "color", "colour"]) ∧
    ("apple" ∈ ["Apple", "apple"] ∧ "Apple" ∈ ["Apple", "apple"]) := by
  have h := domain_closure nearScore ["Apple", "apple"] ["color", "color", "colour"] 94
  exact ⟨h.1 "apple" "Apple" (by decide), h.2.1 "colour" "color" (by decide),
    h.2.2 "apple" "Apple" (by decide)⟩

/-- C7: `wrangle` fails with the input-domain error exactly on terms
outside the original input sequence (it never silently returns such a
term unchanged), and on input terms it returns the recorded substitution
when one exists and the term itself otherwise. -/
theorem wrangle_input_domain (terms : List String) (subs : List (String × String))
    (term : String) :
    (term ∉ terms → wrangle terms subs term = .error (.inputDomainError term)) ∧
    (term ∈ terms → wrangle terms subs term = .ok ((subs.lookup term).getD term)) := by
  unfold wrangle
  constructor
  · intro h
    rw [if_neg h]
  · intro h
    rw [if_pos h]
    rfl

/-- Witness for C7: an unknown term fails, a known one substitutes. -/
theorem wrangle_input_domain_witness :
    wrangle ["cat", "car"] [] "dog" = .error (.inputDomainError "dog") ∧
    wrangle ["cat", "car"] [("cat", "car")] "cat" = .ok "car" :=
  ⟨(wrangle_input_domain ["cat", "car"] [] "dog").1 (by decide),
   (wrangle_input_domain ["cat", "car"] [("cat", "car")] "cat").2 (by decide)⟩

/-- C8: re-running the Capitalization Normalizer on its own
`wrangled_terms` output yields the empty substitution map, for every
input sequence (idempotence of the capitalization pass). -/
theorem capsWrangler_idempotent (terms : List String) :
    capsSubstitutions (wrangledTerms (capsSubstitutions terms) terms) = [] := by
  have hall : ∀ x ∈ uniqueTerms (wrangledTerms (capsSubstitutions terms) terms),
      ((capsSubFor (wrangledTerms (capsSubstitutions terms) terms) x).map
        (fun u => ((x, u) : String × String))) = none := by
    intro x hx
    have h := getPref_wrangled_self (mem_uniqueTerms.mp hx)
    have hsub : capsSubFor (wrangledTerms (capsSubstitutions terms) terms) x = none := by
      unfold capsSubFor
      rw [h]
      show (if x = x then none else some x) = none
      rw [if_pos rfl]
    rw [hsub]
    rfl
  exact List.filterMap_eq_nil_iff.mpr hall

/-- C9: for every substitution map and input sequence, `wrangled_terms`
has the input's length, and position by position equals the recorded
substitution of the input term when one exists and the input term itself
otherwise. -/
theorem wrangledTerms_length_order (subs : List (String × String)) (terms : List String) :
    (wrangledTerms subs terms).length = terms.length ∧
    ∀ i : Nat, (wrangledTerms subs terms)[i]? =
      (terms[i]?).map fun term => (subs.lookup term).getD term := by
  constructor
  · exact List.length_map terms (applySubs subs)
  · intro i
    unfold wrangledTerms applySubs
    exact List.getElem?_map (applySubs subs) terms i

/-- C10: frequency dominance also holds for the Capitalization
Normalizer: every recorded substitution `t ↦ u` has
`count u ≥ count t`, since `u` is a maximum-count member of `t`'s
case-insensitive group. -/
theorem capsWrangler_count_monotone (terms : List String) (t u : String)
    (h : (capsSubstitutions terms).lookup t = some u) :
    terms.count t ≤ terms.count u := by
  obtain ⟨ht, hp, -⟩ := capsLookup_iff.mp h
  exact getPref_count_le hp (mem_groupOf_self ht)

/-- Witness for C10 at the spec's §8 scenario 1. -/
theorem capsWrangler_count_monotone_witness :
    ["Apple", "apple", "apple", "APPLE"].count "Apple" ≤
      ["Apple", "apple", "apple", "APPLE"].count "apple" :=
  capsWrangler_count_monotone ["Apple", "apple", "apple", "APPLE"] "Apple" "apple"
    (by decide)
